import Mathlib

/-!
Shallow embedding of the Metropolis–Hastings MCMC sampler from
`lecture_6_symbolic_python/Symbolic_Computing_SymPy.ipynb`
(functions `proposal`, `accept`, `run_chain`).

Real numbers are modelled by `ℚ` (exact arithmetic); the shared numpy
pseudo-random source is modelled by an explicit stream of raw draws that
every consuming primitive pops sequentially, so the order in which
entropy is consumed is part of the model.  Python's `ZeroDivisionError`
(float division by a zero divisor raises) is modelled by `Except`.
-/

namespace MCMC

/-- The shared pseudo-random source: an infinite stream of raw rational
draws together with a cursor.  Each primitive draw consumes exactly one
stream entry, mirroring the single global numpy generator the notebook
relies on. -/
structure RNG where
  seq : Nat → ℚ
  idx : Nat

/-- Pop the next raw draw from the stream. -/
def RNG.next (g : RNG) : ℚ × RNG :=
  (g.seq g.idx, ⟨g.seq, g.idx + 1⟩)

/-- `np.random.uniform(low, high)`: numpy computes `low + (high - low) * u`
with `u` a raw sample from `[0, 1)`.  The raw stream entry plays the role
of `u`. -/
def uniformDraw (low high : ℚ) (g : RNG) : ℚ × RNG :=
  let p := g.next
  (low + (high - low) * p.1, p.2)

/-- One variate of `np.random.normal(0, sigma)`: numpy scales a standard
normal variate by `sigma`; the raw stream entry plays the role of the
standard variate (it is unconstrained, as a Gaussian has full support). -/
def normalDraw (sigma : ℚ) (g : RNG) : ℚ × RNG :=
  let p := g.next
  (sigma * p.1, p.2)

/-- `np.random.normal(0, sigma, D)`: a vector of `D` variates drawn in
stream order. -/
def drawNormals (sigma : ℚ) : Nat → RNG → List ℚ × RNG
  | 0, g => ([], g)
  | n + 1, g =>
      let p := normalDraw sigma g
      let rest := drawNormals sigma n p.2
      (p.1 :: rest.1, rest.2)

/-- `proposal(oldsamp, sigmaprop, D)`:
`newsamp = oldsamp + np.random.normal(0., sigmaprop, D)`. -/
def proposal (oldsamp : List ℚ) (sigmaprop : ℚ) (D : Nat) (g : RNG) :
    List ℚ × RNG :=
  let p := drawNormals sigmaprop D g
  (List.zipWith (fun a b => a + b) oldsamp p.1, p.2)

/-- The bounds test opening `accept`: every component of `newsamp` must be
strictly above its low bound and strictly below its high bound
(`(newsamp[d] - low[d] > 0).all()` and `(high[d] - newsamp[d] > 0).all()`;
`zip` truncates to the shorter list exactly as Python's `zip` does). -/
def inRange (newsamp : List ℚ) (paramrange : List (ℚ × ℚ)) : Bool :=
  ((newsamp.zip (paramrange.map Prod.fst)).all fun p => decide (p.1 - p.2 > 0))
    &&
  (((paramrange.map Prod.snd).zip newsamp).all fun p => decide (p.1 - p.2 > 0))

/-- `np.random.choice([True, False], p=[prob, 1 - prob])`: numpy draws one
uniform sample `u` from `[0, 1)` and returns the index found by
`cdf.searchsorted(u, side='right')` on `cdf = [prob, 1]`, i.e. `True`
exactly when `u < prob`. -/
def choiceTF (prob : ℚ) (g : RNG) : Bool × RNG :=
  let p := g.next
  (decide (p.1 < prob), p.2)

/-- Numpy's arithmetic on a boolean scalar: `True` is `1`, `False` is `0`. -/
def boolToRat (b : Bool) : ℚ := if b then 1 else 0

/-- The final return value of `accept`'s else-branch,
`acc * newsamp + (1. - acc) * oldsamp`, as elementwise arithmetic on the
two vectors. -/
def blend (acc : Bool) (newsamp oldsamp : List ℚ) : List ℚ :=
  List.zipWith (fun n o => boolToRat acc * n + (1 - boolToRat acc) * o)
    newsamp oldsamp

/-- `accept(newsamp, oldsamp, paramrange, P, *Pargs)`: the
acceptance-rejection step.  `P` is the density evaluator with its extra
arguments already applied (the `*Pargs` pattern is a closure here).
Returns `(acc, sample)` together with the advanced random source. -/
def accept (newsamp oldsamp : List ℚ) (paramrange : List (ℚ × ℚ))
    (P : List ℚ → ℚ) (g : RNG) : (Bool × List ℚ) × RNG :=
  if inRange newsamp paramrange = false then
    ((false, oldsamp), g)
  else
    let newprob := P newsamp
    let oldprob := P oldsamp
    if newprob ≥ oldprob then
      ((true, newsamp), g)
    else
      let prob := newprob / oldprob
      let c := choiceTF prob g
      ((c.1, blend c.1 newsamp oldsamp), c.2)

/-- The body of `run_chain`'s `for i in range(steps)` loop, carrying the
current sample, the trace built so far, and the accepted-step counter. -/
def chainLoop (paramrange : List (ℚ × ℚ)) (sigmaprop : ℚ) (D : Nat)
    (P : List ℚ → ℚ) :
    Nat → List ℚ → List (List ℚ) → Nat → RNG →
      List (List ℚ) × Nat × RNG
  | 0, _, samples, count, g => (samples, count, g)
  | i + 1, oldsamp, samples, count, g =>
      let prop := proposal oldsamp sigmaprop D g
      let a := accept prop.1 oldsamp paramrange P prop.2
      chainLoop paramrange sigmaprop D P i a.1.2 (samples ++ [a.1.2])
        (count + if a.1.1 then 1 else 0) a.2

/-- The initial-state draw
`[np.random.uniform(paramrange[d][0], paramrange[d][1]) for d in range(D)]`,
one uniform draw per dimension, in dimension order. -/
def drawInitFrom : List (ℚ × ℚ) → RNG → List ℚ × RNG
  | [], g => ([], g)
  | p :: rest, g =>
      let u := uniformDraw p.1 p.2 g
      let vs := drawInitFrom rest u.2
      (u.1 :: vs.1, vs.2)

/-- `run_chain(steps, paramrange, sigmaprop, D, P, *Pargs)`.  The trace
starts at `[oldsamp]` and one entry is appended per step; afterwards
`ar = 1.*count/steps` is computed, which in Python raises
`ZeroDivisionError` when `steps = 0` — modelled as `Except.error` (the
random source has already been advanced when the error is raised).  The
comprehension indexes `paramrange[d]` for `d < D`, modelled by
`paramrange.take D` (faithful whenever `D ≤ paramrange.length`). -/
def run_chain (steps : Nat) (paramrange : List (ℚ × ℚ)) (sigmaprop : ℚ)
    (D : Nat) (P : List ℚ → ℚ) (g : RNG) :
    Except String (List (List ℚ) × ℚ) × RNG :=
  let init := drawInitFrom (paramrange.take D) g
  let res := chainLoop paramrange sigmaprop D P steps init.1 [init.1] 0 init.2
  if steps = 0 then
    (Except.error "ZeroDivisionError: float division by zero", res.2.2)
  else
    (Except.ok (res.1, (res.2.1 : ℚ) / (steps : ℚ)), res.2.2)

/-- The per-step acceptance flags of a run, in step order: an independent
recount of which `accept` calls returned `True`, used to state the
acceptance-ratio property. -/
def chainAccs (paramrange : List (ℚ × ℚ)) (sigmaprop : ℚ) (D : Nat)
    (P : List ℚ → ℚ) : Nat → List ℚ → RNG → List Bool
  | 0, _, _ => []
  | i + 1, oldsamp, g =>
      let prop := proposal oldsamp sigmaprop D g
      let a := accept prop.1 oldsamp paramrange P prop.2
      a.1.1 :: chainAccs paramrange sigmaprop D P i a.1.2 a.2

/-- A concrete random source whose raw draws are all `v`, used for
concrete evaluations. -/
def constRNG (v : ℚ) : RNG := ⟨fun _ => v, 0⟩

/-- Closed-interval membership in every dimension:
`low[d] ≤ state[d] ≤ high[d]` componentwise (implies equal lengths). -/
def InBoundsCl (paramrange : List (ℚ × ℚ)) (s : List ℚ) : Prop :=
  List.Forall₂ (fun p x => p.1 ≤ x ∧ x ≤ p.2) paramrange s

/-- The loop appends exactly one trace entry per step. -/
theorem chainLoop_length (pr : List (ℚ × ℚ)) (sp : ℚ) (D : Nat)
    (P : List ℚ → ℚ) :
    ∀ (i : Nat) (old : List ℚ) (samples : List (List ℚ)) (count : Nat)
      (g : RNG),
      (chainLoop pr sp D P i old samples count g).1.length
        = samples.length + i := by
  intro i
  induction i with
  | zero => intro old samples count g; rfl
  | succ n ih =>
      intro old samples count g
      simp only [chainLoop]
      rw [ih]
      simp only [List.length_append, List.length_singleton]
      omega

/-- The loop's counter counts exactly the steps whose `accept` call
returned `True`. -/
theorem chainLoop_count (pr : List (ℚ × ℚ)) (sp : ℚ) (D : Nat)
    (P : List ℚ → ℚ) :
    ∀ (i : Nat) (old : List ℚ) (samples : List (List ℚ)) (count : Nat)
      (g : RNG),
      (chainLoop pr sp D P i old samples count g).2.1
        = count + (chainAccs pr sp D P i old g).count true := by
  intro i
  induction i with
  | zero => intro old samples count g; simp [chainLoop, chainAccs]
  | succ n ih =>
      intro old samples count g
      simp only [chainLoop, chainAccs]
      rw [ih]
      rw [List.count_cons]
      rcases (accept (proposal old sp D g).1 old pr P
          (proposal old sp D g).2).1.1 with _ | _
      · simp
      · simp
        omega

theorem blend_true : ∀ (n o : List ℚ), n.length = o.length →
    blend true n o = n
  | [], _, _ => rfl
  | _ :: _, [], h => by simp at h
  | a :: n, b :: o, h => by
      have ih := blend_true n o (by simpa using h)
      simp only [blend, List.zipWith_cons_cons] at ih ⊢
      rw [ih]
      simp [boolToRat]

theorem blend_false : ∀ (n o : List ℚ), n.length = o.length →
    blend false n o = o
  | [], [], _ => rfl
  | _ :: _, [], h => by simp at h
  | [], _ :: _, h => by simp at h
  | a :: n, b :: o, h => by
      have ih := blend_false n o (by simpa using h)
      simp only [blend, List.zipWith_cons_cons] at ih ⊢
      rw [ih]
      simp [boolToRat]

/-- Shared branch computation: in range and strictly smaller proposed
density, `accept` pops one uniform draw `u` and returns the candidate
exactly when `u < P x' / P x`, the unchanged current state otherwise. -/
theorem accept_lt (cand old : List ℚ) (pr : List (ℚ × ℚ))
    (P : List ℚ → ℚ) (g : RNG)
    (hin : inRange cand pr = true) (hlt : P cand < P old)
    (hlen : cand.length = old.length) :
    accept cand old pr P g =
      ((decide (g.seq g.idx < P cand / P old),
        if g.seq g.idx < P cand / P old then cand else old),
       ⟨g.seq, g.idx + 1⟩) := by
  have hnot : ¬ (P cand ≥ P old) := not_le.mpr hlt
  simp only [accept, hin, Bool.true_eq_false, if_false, if_neg hnot,
    choiceTF, RNG.next]
  by_cases hu : g.seq g.idx < P cand / P old
  · simp [hu, blend_true cand old hlen]
  · simp [hu, blend_false cand old hlen]

/-- Claim C5: for every in-bounds candidate whose density is at least the
current state's, `accept` deterministically accepts, returning
`(true, x')` with the random source untouched (no acceptance variate is
drawn). -/
theorem accept_geq_accepts (cand old : List ℚ) (pr : List (ℚ × ℚ))
    (P : List ℚ → ℚ) (g : RNG)
    (hin : inRange cand pr = true) (hge : P old ≤ P cand) :
    accept cand old pr P g = ((true, cand), g) := by
  simp [accept, hin, hge]

/-- Claim C10: whenever the density at the current state is zero, `accept`
accepts every in-bounds candidate — including one whose own density is
also zero — because `P x' ≥ P x` holds for any non-negative density. -/
theorem accept_zero_current_accepts (cand old : List ℚ)
    (pr : List (ℚ × ℚ)) (P : List ℚ → ℚ) (g : RNG)
    (hin : inRange cand pr = true) (hold0 : P old = 0)
    (hnn : 0 ≤ P cand) :
    accept cand old pr P g = ((true, cand), g) := by
  have hge : P old ≤ P cand := hold0 ▸ hnn
  simp [accept, hin, hge]

/-- Claim C4: for an in-bounds candidate with `0 ≤ P x' < P x`, `accept`
draws one uniform variate `u`, accepts exactly when `u` is below the ratio
`P x' / P x`, and on rejection returns `(false, x)` with the current state
unchanged in value. -/
theorem accept_metropolis_ratio (cand old : List ℚ) (pr : List (ℚ × ℚ))
    (P : List ℚ → ℚ) (g : RNG)
    (hin : inRange cand pr = true) (_hnn : 0 ≤ P cand)
    (hlt : P cand < P old) (hlen : cand.length = old.length) :
    accept cand old pr P g =
      ((decide (g.seq g.idx < P cand / P old),
        if g.seq g.idx < P cand / P old then cand else old),
       ⟨g.seq, g.idx + 1⟩) :=
  accept_lt cand old pr P g hin hlt hlen

/-- Claim C2: for an in-bounds candidate under non-negative densities the
divisor of the acceptance ratio is never zero (the division branch is
reached only when `P x' < P x`, forcing `P x ≠ 0`), and a zero density at
the proposed point with `P x > 0` lands in the reject branch and is
rejected outright (the uniform draw, being non-negative, is never below
the zero ratio). -/
theorem accept_no_div_by_zero (cand old : List ℚ) (pr : List (ℚ × ℚ))
    (P : List ℚ → ℚ) (g : RNG)
    (hin : inRange cand pr = true)
    (hP : ∀ s, 0 ≤ P s)
    (hu : 0 ≤ g.seq g.idx)
    (hlen : cand.length = old.length) :
    (P cand < P old → P old ≠ 0) ∧
    (P cand = 0 → 0 < P old →
      accept cand old pr P g = ((false, old), ⟨g.seq, g.idx + 1⟩)) := by
  constructor
  · intro hlt h0
    rw [h0] at hlt
    exact absurd hlt (not_lt.mpr (hP cand))
  · intro h0 hpos
    have hlt : P cand < P old := by rw [h0]; exact hpos
    rw [accept_lt cand old pr P g hin hlt hlen]
    have hnu : ¬ (g.seq g.idx < P cand / P old) := by
      rw [h0, zero_div]
      exact not_lt.mpr hu
    simp [hnu]

/-- Claim C3: a candidate with any component outside its range is rejected
unconditionally: `accept` returns `(false, x)` with the random source
untouched and without evaluating the density (the result is the same for
every evaluator), and the driver's step for such a candidate appends the
prior state to the trace and leaves the acceptance counter unchanged. -/
theorem accept_out_of_range_rejects (cand old : List ℚ)
    (pr : List (ℚ × ℚ)) (sp : ℚ) (D i count : Nat)
    (samples : List (List ℚ)) (P : List ℚ → ℚ) (gd : RNG)
    (h1 : inRange cand pr = false)
    (h2 : inRange (proposal old sp D gd).1 pr = false) :
    (∀ (Q : List ℚ → ℚ) (g : RNG),
        accept cand old pr Q g = ((false, old), g)) ∧
    chainLoop pr sp D P (i + 1) old samples count gd
      = chainLoop pr sp D P i old (samples ++ [old]) count
          (proposal old sp D gd).2 := by
  constructor
  · intro Q g
    simp [accept, h1]
  · simp only [chainLoop]
    simp [accept, h2]

/-- Claim C9: with `steps = 0` the driver does not return a trace: the
acceptance-ratio computation `1.*count/steps` divides by zero and the call
fails with a `ZeroDivisionError` before returning (stated for dimensions
the parameter-range list covers, where the embedding is faithful). -/
theorem run_chain_zero_steps_error (pr : List (ℚ × ℚ)) (sp : ℚ) (D : Nat)
    (P : List ℚ → ℚ) (g : RNG) (_hD : D ≤ pr.length) :
    (run_chain 0 pr sp D P g).1
      = Except.error "ZeroDivisionError: float division by zero" := rfl

/-- Claim C1 (amended): for every step count `N ≥ 1` the driver returns a
trace of length `N + 1`, the initial state plus one entry per step. -/
theorem run_chain_trace_length (steps : Nat) (pr : List (ℚ × ℚ)) (sp : ℚ)
    (D : Nat) (P : List ℚ → ℚ) (g : RNG) (h : 1 ≤ steps) :
    ∃ tr ar, (run_chain steps pr sp D P g).1 = Except.ok (tr, ar)
      ∧ tr.length = steps + 1 := by
  have h0 : steps ≠ 0 := by omega
  refine ⟨(chainLoop pr sp D P steps (drawInitFrom (pr.take D) g).1
      [(drawInitFrom (pr.take D) g).1] 0 (drawInitFrom (pr.take D) g).2).1,
    ((chainLoop pr sp D P steps (drawInitFrom (pr.take D) g).1
      [(drawInitFrom (pr.take D) g).1] 0
        (drawInitFrom (pr.take D) g).2).2.1 : ℚ) / (steps : ℚ),
    ?_, ?_⟩
  · simp only [run_chain, if_neg h0]
  · rw [chainLoop_length]
    simp
    omega

/-- Claim C1 (counterexample to the claim as stated): at `N = 0` the
driver does not return a trace of length `1`; it fails with a
division-by-zero error. -/
theorem run_chain_len_fails_at_zero :
    (run_chain 0 [((0:ℚ), 1)] 1 1 (fun _ => 1) (constRNG 0)).1
      = Except.error "ZeroDivisionError: float division by zero" := rfl

/-- Claim C7: for every run with `N ≥ 1` steps, the returned acceptance
ratio equals the number of steps whose `accept` call returned `True`
divided by `N`. -/
theorem run_chain_acceptance_ratio (steps : Nat) (pr : List (ℚ × ℚ))
    (sp : ℚ) (D : Nat) (P : List ℚ → ℚ) (g : RNG)
    (tr : List (List ℚ)) (ar : ℚ)
    (h : 1 ≤ steps)
    (hrun : (run_chain steps pr sp D P g).1 = Except.ok (tr, ar)) :
    ar = ((chainAccs pr sp D P steps (drawInitFrom (pr.take D) g).1
        (drawInitFrom (pr.take D) g).2).count true : ℚ) / (steps : ℚ) := by
  have h0 : steps ≠ 0 := by omega
  simp only [run_chain, if_neg h0, Except.ok.injEq, Prod.mk.injEq] at hrun
  rw [← hrun.2, chainLoop_count]
  simp

theorem drawNormals_length (sp : ℚ) : ∀ (n : Nat) (g : RNG),
    (drawNormals sp n g).1.length = n
  | 0, _ => rfl
  | n + 1, g => by
      simp only [drawNormals, List.length_cons]
      rw [drawNormals_length sp n]

theorem proposal_length (old : List ℚ) (sp : ℚ) (D : Nat) (g : RNG) :
    (proposal old sp D g).1.length = min old.length D := by
  simp [proposal, drawNormals_length]

/-- A candidate of matching length passing the bounds test lies strictly
inside every interval. -/
theorem inRange_forall : ∀ (pr : List (ℚ × ℚ)) (cand : List ℚ),
    cand.length = pr.length → inRange cand pr = true →
    List.Forall₂ (fun p x => p.1 < x ∧ x < p.2) pr cand
  | [], [], _, _ => List.Forall₂.nil
  | [], _ :: _, h, _ => by simp at h
  | _ :: _, [], h, _ => by simp at h
  | p :: pr, x :: cand, h, hin => by
      have hl : cand.length = pr.length := by simpa using h
      simp only [inRange, List.map_cons, List.zip_cons_cons, List.all_cons,
        Bool.and_eq_true, decide_eq_true_eq] at hin
      obtain ⟨⟨h1, h2⟩, h3, h4⟩ := hin
      refine List.Forall₂.cons ⟨by linarith, by linarith⟩ ?_
      apply inRange_forall pr cand hl
      simp only [inRange, Bool.and_eq_true]
      exact ⟨h2, h4⟩

theorem strict_in_bounds {pr : List (ℚ × ℚ)} {s : List ℚ}
    (h : List.Forall₂ (fun p x => p.1 < x ∧ x < p.2) pr s) :
    InBoundsCl pr s :=
  List.Forall₂.imp (fun _ _ hab => ⟨le_of_lt hab.1, le_of_lt hab.2⟩) h

/-- The initial-state draw stays within the closed intervals whenever its
raw stream entries are valid uniform samples. -/
theorem drawInitFrom_bounds : ∀ (prs : List (ℚ × ℚ)) (g : RNG),
    (∀ p ∈ prs, p.1 ≤ p.2) →
    (∀ k, k < prs.length →
      0 ≤ g.seq (g.idx + k) ∧ g.seq (g.idx + k) ≤ 1) →
    InBoundsCl prs (drawInitFrom prs g).1
  | [], _, _, _ => List.Forall₂.nil
  | p :: rest, g, hlh, hu => by
      simp only [drawInitFrom, uniformDraw, RNG.next]
      refine List.Forall₂.cons ?_ ?_
      · have h0 := hu 0 (by simp)
        rw [Nat.add_zero] at h0
        have hl : p.1 ≤ p.2 := hlh p (List.mem_cons_self p rest)
        constructor
        · nlinarith [h0.1, h0.2]
        · nlinarith [h0.1, h0.2]
      · apply drawInitFrom_bounds rest ⟨g.seq, g.idx + 1⟩
          (fun q hq => hlh q (List.mem_cons_of_mem p hq))
        intro k hk
        have hk' : k + 1 < (p :: rest).length := by
          simp only [List.length_cons]
          omega
        have h1 := hu (k + 1) hk'
        have e : g.idx + (k + 1) = g.idx + 1 + k := by omega
        rw [e] at h1
        exact h1

/-- `accept` preserves the closed-bounds invariant of the carried state. -/
theorem accept_preserves_bounds (cand old : List ℚ) (pr : List (ℚ × ℚ))
    (P : List ℚ → ℚ) (g : RNG)
    (hold : InBoundsCl pr old) (hlen : cand.length = pr.length) :
    InBoundsCl pr (accept cand old pr P g).1.2 := by
  by_cases hin : inRange cand pr = true
  · have hcand : InBoundsCl pr cand :=
      strict_in_bounds (inRange_forall pr cand hlen hin)
    by_cases hge : P old ≤ P cand
    · simp [accept, hin, hge]
      exact hcand
    · have hlen2 : cand.length = old.length := by
        rw [hlen, List.Forall₂.length_eq hold]
      rw [accept_lt cand old pr P g hin (not_le.mp hge) hlen2]
      by_cases hu : g.seq g.idx < P cand / P old
      · simp [hu]
        exact hcand
      · simp [hu]
        exact hold
  · have hin' : inRange cand pr = false := by
      revert hin
      cases inRange cand pr <;> simp
    simp [accept, hin']
    exact hold

/-- The loop preserves the closed-bounds invariant of every recorded
state. -/
theorem chainLoop_bounds (pr : List (ℚ × ℚ)) (sp : ℚ) (D : Nat)
    (P : List ℚ → ℚ) (hD : D = pr.length) :
    ∀ (i : Nat) (old : List ℚ) (samples : List (List ℚ)) (count : Nat)
      (g : RNG),
      InBoundsCl pr old →
      (∀ s ∈ samples, InBoundsCl pr s) →
      ∀ s ∈ (chainLoop pr sp D P i old samples count g).1,
        InBoundsCl pr s := by
  intro i
  induction i with
  | zero =>
      intro old samples count g _ hs s hmem
      exact hs s hmem
  | succ n ih =>
      intro old samples count g hold hs
      simp only [chainLoop]
      have holdlen : pr.length = old.length := List.Forall₂.length_eq hold
      have hcl : (proposal old sp D g).1.length = pr.length := by
        rw [proposal_length, ← holdlen, hD]
        simp
      have hnew := accept_preserves_bounds (proposal old sp D g).1 old pr P
        (proposal old sp D g).2 hold hcl
      apply ih _ _ _ _ hnew
      intro s hmem
      rcases List.mem_append.mp hmem with hm | hm
      · exact hs s hm
      · simp only [List.mem_singleton] at hm
        rw [hm]
        exact hnew

/-- Claim C6: every state recorded in the trace — the initial state and
all `N` subsequent entries — satisfies `low[d] ≤ state[d] ≤ high[d]` in
every dimension, for any run whose initial raw draws are valid uniform
samples and whose ranges satisfy `low ≤ high`. -/
theorem run_chain_trace_bounds (steps : Nat) (pr : List (ℚ × ℚ))
    (sp : ℚ) (D : Nat) (P : List ℚ → ℚ) (g : RNG)
    (tr : List (List ℚ)) (ar : ℚ)
    (hD : D = pr.length)
    (hlh : ∀ p ∈ pr, p.1 ≤ p.2)
    (hu : ∀ k, k < D → 0 ≤ g.seq (g.idx + k) ∧ g.seq (g.idx + k) ≤ 1)
    (hrun : (run_chain steps pr sp D P g).1 = Except.ok (tr, ar)) :
    ∀ s ∈ tr, InBoundsCl pr s := by
  have htake : pr.take D = pr := by
    rw [hD]
    exact List.take_length pr
  by_cases h0 : steps = 0
  · rw [h0] at hrun
    simp [run_chain] at hrun
  · simp only [run_chain, if_neg h0, Except.ok.injEq, Prod.mk.injEq] at hrun
    have hinit : InBoundsCl pr (drawInitFrom (pr.take D) g).1 := by
      rw [htake]
      apply drawInitFrom_bounds pr g hlh
      intro k hk
      apply hu
      rw [hD]
      exact hk
    rw [← hrun.1]
    apply chainLoop_bounds pr sp D P hD steps _ _ 0 _ hinit
    intro s hsmem
    simp only [List.mem_singleton] at hsmem
    rw [hsmem]
    exact hinit

/-- Claim C8: the driver is deterministic in the random source — two runs
with the same step count, parameter range, step size, dimension and
density evaluator, whose random sources agree on cursor and on every
stream entry, produce identical traces, acceptance ratios and final
source states. -/
theorem run_chain_deterministic (steps : Nat) (pr : List (ℚ × ℚ))
    (sp : ℚ) (D : Nat) (P : List ℚ → ℚ) (g₁ g₂ : RNG)
    (hidx : g₁.idx = g₂.idx) (hseq : ∀ n, g₁.seq n = g₂.seq n) :
    run_chain steps pr sp D P g₁ = run_chain steps pr sp D P g₂ := by
  obtain ⟨s₁, i₁⟩ := g₁
  obtain ⟨s₂, i₂⟩ := g₂
  have hs : s₁ = s₂ := funext hseq
  simp only at hidx
  rw [hs, hidx]

/-- Witness for claim C5 at a concrete in-bounds candidate with a flat
density. -/
theorem accept_geq_accepts_witness :
    inRange [(1/2 : ℚ)] [((0:ℚ), 1)] = true ∧
    accept [(1/2 : ℚ)] [(1/4 : ℚ)] [((0:ℚ), 1)] (fun _ => 1) (constRNG 0)
      = ((true, [(1/2 : ℚ)]), constRNG 0) :=
  ⟨by norm_num [inRange],
   accept_geq_accepts _ _ _ _ _ (by norm_num [inRange]) (le_refl 1)⟩

/-- Witness for claim C10 at a concrete in-bounds candidate with an
everywhere-zero density. -/
theorem accept_zero_current_accepts_witness :
    inRange [(1/2 : ℚ)] [((0:ℚ), 1)] = true ∧
    accept [(1/2 : ℚ)] [(1/4 : ℚ)] [((0:ℚ), 1)] (fun _ => 0) (constRNG 0)
      = ((true, [(1/2 : ℚ)]), constRNG 0) :=
  ⟨by norm_num [inRange],
   accept_zero_current_accepts _ _ _ _ _ (by norm_num [inRange]) rfl
     (le_refl 0)⟩

/-- Witness for claim C4 at a concrete in-bounds candidate whose density
is below the current state's. -/
theorem accept_metropolis_ratio_witness :
    inRange [(1/2 : ℚ)] [((0:ℚ), 1)] = true ∧
    accept [(1/2 : ℚ)] [(1/4 : ℚ)] [((0:ℚ), 1)]
        (fun s => 1 - s.headD 0) (constRNG 0)
      = ((decide ((constRNG 0).seq (constRNG 0).idx <
            (fun s => 1 - s.headD 0) [(1/2 : ℚ)]
              / (fun s => 1 - s.headD 0) [(1/4 : ℚ)]),
          if (constRNG 0).seq (constRNG 0).idx <
              (fun s => 1 - s.headD 0) [(1/2 : ℚ)]
                / (fun s => 1 - s.headD 0) [(1/4 : ℚ)]
          then [(1/2 : ℚ)] else [(1/4 : ℚ)]),
         ⟨(constRNG 0).seq, (constRNG 0).idx + 1⟩) :=
  ⟨by norm_num [inRange],
   accept_metropolis_ratio _ _ _ _ _ (by norm_num [inRange])
     (by norm_num) (by norm_num) rfl⟩

/-- Witness for claim C2 at a concrete in-bounds candidate of zero density
proposed from a state of positive density. -/
theorem accept_no_div_by_zero_witness :
    inRange [(0 : ℚ)] [((-1:ℚ), 1)] = true ∧
    accept [(0 : ℚ)] [(1/2 : ℚ)] [((-1:ℚ), 1)]
        (fun s => (s.headD 0)^2) (constRNG 0)
      = ((false, [(1/2 : ℚ)]),
         ⟨(constRNG 0).seq, (constRNG 0).idx + 1⟩) :=
  ⟨by norm_num [inRange],
   (accept_no_div_by_zero [(0 : ℚ)] [(1/2 : ℚ)] [((-1:ℚ), 1)]
      (fun s => (s.headD 0)^2) (constRNG 0) (by norm_num [inRange])
      (fun s => sq_nonneg (s.headD 0)) (le_refl 0) rfl).2
     (by norm_num) (by norm_num)⟩

/-- Witness for claim C3 at a concrete candidate lying beyond the upper
bound. -/
theorem accept_out_of_range_rejects_witness :
    inRange [(2 : ℚ)] [((0:ℚ), 1)] = false ∧
    inRange (proposal [(1/2 : ℚ)] 4 1 (constRNG 1)).1 [((0:ℚ), 1)] = false ∧
    accept [(2 : ℚ)] [(1/2 : ℚ)] [((0:ℚ), 1)] (fun _ => 1) (constRNG 0)
      = ((false, [(1/2 : ℚ)]), constRNG 0) :=
  ⟨by norm_num [inRange],
   by norm_num [inRange, proposal, drawNormals, normalDraw, RNG.next, constRNG],
   (accept_out_of_range_rejects [(2 : ℚ)] [(1/2 : ℚ)] [((0:ℚ), 1)] 4 1 0 0
      [] (fun _ => 1) (constRNG 1)
      (by norm_num [inRange])
      (by norm_num [inRange, proposal, drawNormals, normalDraw, RNG.next,
        constRNG])).1 (fun _ => 1) (constRNG 0)⟩

/-- Witness for claim C9 at a concrete zero-step run. -/
theorem run_chain_zero_steps_error_witness :
    1 ≤ [((0:ℚ), 2)].length ∧
    (run_chain 0 [((0:ℚ), 2)] 1 1 (fun _ => 1) (constRNG 1)).1
      = Except.error "ZeroDivisionError: float division by zero" :=
  ⟨by decide,
   run_chain_zero_steps_error [((0:ℚ), 2)] 1 1 (fun _ => 1) (constRNG 1)
     (by decide)⟩

/-- Witness for claim C1 (amended) at a concrete one-step run. -/
theorem run_chain_trace_length_witness :
    1 ≤ 1 ∧
    (run_chain 1 [((0:ℚ), 1)] 1 1 (fun _ => 1) (constRNG 0)).1.isOk = true :=
  ⟨le_refl 1, by
    obtain ⟨tr, ar, h1, h2⟩ :=
      run_chain_trace_length 1 [((0:ℚ), 1)] 1 1 (fun _ => 1) (constRNG 0)
        (le_refl 1)
    rw [h1]
    rfl⟩

/-- Witness for claim C7 at a concrete one-step run (a single rejected
step: acceptance ratio zero). -/
theorem run_chain_acceptance_ratio_witness :
    (run_chain 1 [((0:ℚ), 1)] 1 1 (fun _ => 1) (constRNG 0)).1
      = Except.ok ([[(0:ℚ)], [(0:ℚ)]], 0) ∧
    (0 : ℚ) = ((chainAccs [((0:ℚ), 1)] 1 1 (fun _ => 1) 1
        (drawInitFrom ([((0:ℚ), 1)].take 1) (constRNG 0)).1
        (drawInitFrom ([((0:ℚ), 1)].take 1) (constRNG 0)).2).count true : ℚ)
      / ((1 : Nat) : ℚ) :=
  ⟨by norm_num [run_chain, drawInitFrom, uniformDraw, chainLoop, proposal,
      drawNormals, normalDraw, accept, inRange, choiceTF, blend, boolToRat,
      RNG.next, constRNG],
   run_chain_acceptance_ratio 1 [((0:ℚ), 1)] 1 1 (fun _ => 1) (constRNG 0)
     [[(0:ℚ)], [(0:ℚ)]] 0 (le_refl 1)
     (by norm_num [run_chain, drawInitFrom, uniformDraw, chainLoop, proposal,
       drawNormals, normalDraw, accept, inRange, choiceTF, blend, boolToRat,
       RNG.next, constRNG])⟩

/-- Witness for claim C8: two syntactically different random sources with
pointwise-equal streams yield identical runs. -/
theorem run_chain_deterministic_witness :
    (constRNG 0).idx = (⟨fun n => 0 * (n : ℚ), 0⟩ : RNG).idx ∧
    run_chain 2 [((0:ℚ), 1)] 1 1 (fun _ => 1) (constRNG 0)
      = run_chain 2 [((0:ℚ), 1)] 1 1 (fun _ => 1)
          (⟨fun n => 0 * (n : ℚ), 0⟩ : RNG) :=
  ⟨rfl,
   run_chain_deterministic 2 [((0:ℚ), 1)] 1 1 (fun _ => 1) (constRNG 0)
     (⟨fun n => 0 * (n : ℚ), 0⟩ : RNG) rfl
     (fun n => (zero_mul ((n : ℚ))).symm)⟩

/-- Witness for claim C6 at a concrete one-step run: the recorded initial
state lies within the closed interval. -/
theorem run_chain_trace_bounds_witness :
    (run_chain 1 [((0:ℚ), 1)] 1 1 (fun _ => 1) (constRNG 0)).1
      = Except.ok ([[(0:ℚ)], [(0:ℚ)]], 0) ∧
    InBoundsCl [((0:ℚ), 1)] [(0:ℚ)] :=
  ⟨by norm_num [run_chain, drawInitFrom, uniformDraw, chainLoop, proposal,
      drawNormals, normalDraw, accept, inRange, choiceTF, blend, boolToRat,
      RNG.next, constRNG],
   run_chain_trace_bounds 1 [((0:ℚ), 1)] 1 1 (fun _ => 1) (constRNG 0)
     [[(0:ℚ)], [(0:ℚ)]] 0 rfl (by norm_num)
     (by intro k _; constructor <;> norm_num [constRNG])
     (by norm_num [run_chain, drawInitFrom, uniformDraw, chainLoop, proposal,
       drawNormals, normalDraw, accept, inRange, choiceTF, blend, boolToRat,
       RNG.next, constRNG])
     [(0:ℚ)] (by simp)⟩

end MCMC
